import Mathlib

/-!
Verification development for `bom-merger` (`main.go`).

The program merges BOM JSON fragments: it ingests per-file JSON array
documents into two maps keyed by project identifier (first document of a
file = resolved projects, later documents = error projects), reduces the
license list of each resolved record to the single best-confidence guess,
removes resolved records by module prefix, substitutes override records,
derives a VCS root per record, and writes both tables as sorted JSON
arrays.

Go maps are modelled as association lists (`Reg`); the list order stands
for the unspecified iteration order of a Go map.  Go `float64` confidence
values are modelled as rationals, which preserves every comparison the
program performs.  Fallible operations return `Except String`.
-/

/-- Go struct `license` in main.go. -/
structure license where
  type : String
  confidence : ℚ
  deriving DecidableEq

/-- Go struct `projectAndLicenses` in main.go.  Absent optional fields are
the Go zero values: empty string / empty list. -/
structure projectAndLicenses where
  project : String
  licenses : List license
  error : String
  vcs : String
  deriving DecidableEq

/-- A Go `map[string]projectAndLicenses`, as an association list.  The list
order models the (unspecified) iteration order of the Go map. -/
abbrev Reg := List (String × projectAndLicenses)

/-- Go map lookup `reg[k]`. -/
def lookupReg (reg : Reg) (k : String) : Option projectAndLicenses :=
  (reg.find? (fun kv => kv.1 == k)).map Prod.snd

/-- Go map assignment `reg[k] = v`: replace the binding if the key is
present, otherwise add a new binding. -/
def regSet (reg : Reg) (k : String) (v : projectAndLicenses) : Reg :=
  if reg.any (fun kv => kv.1 == k) then
    reg.map (fun kv => if kv.1 == k then (k, v) else kv)
  else
    reg ++ [(k, v)]

/-- The inner loop of Go `cleanupLicense`: running maximum `score`
(initialised by the caller to 0), current position `i`, and running best
index `idx`, exactly `for i, lic := range info.Licenses` with
`if lic.Confidence > score`. -/
def scanBest : List license → ℚ → Nat → Nat → ℚ × Nat
  | [], score, _, idx => (score, idx)
  | lic :: rest, score, i, idx =>
    if score < lic.confidence then scanBest rest lic.confidence (i + 1) i
    else scanBest rest score (i + 1) idx

/-- Zero value used only as the (unreachable) `getD` default. -/
def defaultLicense : license := { type := "", confidence := 0 }

/-- Go `cleanupLicense` applied to one record: when more than one license
guess is present, keep only `info.Licenses[idx]` for the scanned index. -/
def cleanupRecord (info : projectAndLicenses) : projectAndLicenses :=
  if 1 < info.licenses.length then
    { info with
      licenses := [info.licenses.getD (scanBest info.licenses 0 0 0).2 defaultLicense] }
  else info

/-- Go `cleanupLicense`: every map entry is rewritten independently. -/
def cleanupLicense (reg : Reg) : Reg :=
  reg.map (fun kv => (kv.1, cleanupRecord kv.2))

/-- Bytewise prefix test on character lists. -/
def isPrefixB : List Char → List Char → Bool
  | [], _ => true
  | _ :: _, [] => false
  | a :: as, b :: bs => if a = b then isPrefixB as bs else false

/-- Go `strings.HasPrefix s pre`. -/
def strStartsWith (s pre : String) : Bool :=
  isPrefixB pre.data s.data

/-- Splitting a character list at every occurrence of `sep`
(`strings.Split` with a one-character separator; the empty input yields
one empty field). -/
def splitChars (sep : Char) : List Char → List (List Char)
  | [] => [[]]
  | c :: rest =>
    if c = sep then [] :: splitChars sep rest
    else
      match splitChars sep rest with
      | [] => [[c]]
      | h :: t => (c :: h) :: t

/-- Go `strings.Split s "/"`. -/
def strSplitSlash (s : String) : List String :=
  (splitChars '/' s.data).map (fun cs => String.mk cs)

/-- Go `strings.Join xs sep`. -/
def joinWith (sep : String) : List String → String
  | [] => ""
  | [x] => x
  | x :: y :: xs => x ++ sep ++ joinWith sep (y :: xs)

/-- Go slice expression `xs[:n]` on a slice whose capacity equals its
length (as returned by `strings.Split`): in range it truncates, out of
range it panics. -/
def goSliceTo (xs : List String) (n : Nat) : Except String (List String) :=
  if n ≤ xs.length then Except.ok (xs.take n)
  else Except.error ("slice bounds out of range")

/-- One entry of the Go `discoverVCS` loop.  `detect` models the external
`mod.DetectVCSRoot`; it receives `info.Project` while the prefix heuristic
inspects the map key `project`, exactly as in the source. -/
def discoverRecord (detect : String → Except String String) (project : String)
    (info : projectAndLicenses) : Except String projectAndLicenses :=
  match detect info.project with
  | Except.error e => Except.error e
  | Except.ok vcs =>
    if vcs ≠ "" then Except.ok { info with vcs := vcs }
    else if strStartsWith project ("github.com/") then
      match goSliceTo (strSplitSlash project) 3 with
      | Except.error e => Except.error e
      | Except.ok parts => Except.ok { info with vcs := joinWith ("/") parts }
    else Except.ok info

/-- Go `discoverVCS`: rewrite every entry, aborting on the first failure
(a `DetectVCSRoot` error or the slice-bounds panic). -/
def discoverVCS (detect : String → Except String String) : Reg → Except String Reg
  | [] => Except.ok []
  | kv :: rest =>
    match discoverRecord detect kv.1 kv.2 with
    | Except.error e => Except.error e
    | Except.ok v =>
      match discoverVCS detect rest with
      | Except.error e => Except.error e
      | Except.ok r => Except.ok ((kv.1, v) :: r)

/-- Lexicographic comparison of character lists: the order `sort.Strings`
sorts by. -/
def strLeB : List Char → List Char → Bool
  | [], _ => true
  | _ :: _, [] => false
  | a :: as, b :: bs =>
    if a < b then true
    else if b < a then false
    else strLeB as bs

/-- Go string comparison `a <= b` (lexicographic). -/
def strLe (a b : String) : Bool :=
  strLeB a.data b.data

/-- Go `Keys`: the map's keys, sorted ascending (`sort.Strings`). -/
def Keys (m : Reg) : List String :=
  List.insertionSort (fun a b => strLe a b = true) (m.map Prod.fst)

/-- The record array Go `writeBOM` serializes: the table's values in
ascending key order. -/
def writeBOMList (reg : Reg) : List projectAndLicenses :=
  (Keys reg).filterMap (fun k => lookupReg reg k)

/-- One decoded JSON array document. -/
abbrev BOMDoc := List projectAndLicenses

/-- One input file: the stream of its decode results.  An `Except.error`
element models a document on which `decoder.Decode` fails. -/
abbrev BOMFile := List (Except String BOMDoc)

/-- Merging one decoded document into a table: records with an empty
project identifier are skipped, the rest overwrite by key. -/
def ingestDoc (reg : Reg) (doc : BOMDoc) : Reg :=
  doc.foldl (fun r p => if p.project = "" then r else regSet r p.project p) reg

/-- The decode loop of Go `loadBOM` with its `gooddoc` flag: the first
document goes to the resolved table, all later ones to the error table;
any decode failure aborts. -/
def loadBOMAux : BOMFile → Bool → Reg → Reg → Except String (Reg × Reg)
  | [], _, bom, errs => Except.ok (bom, errs)
  | Except.error e :: _, _, _, _ => Except.error e
  | Except.ok info :: rest, gooddoc, bom, errs =>
    if gooddoc then loadBOMAux rest false (ingestDoc bom info) errs
    else loadBOMAux rest false bom (ingestDoc errs info)

/-- Go `loadBOM` for one file. -/
def loadBOM (docs : BOMFile) (bom errs : Reg) : Except String (Reg × Reg) :=
  loadBOMAux docs true bom errs

/-- The file loop of `main`: load each file in turn, aborting on the first
failure. -/
def loadAll : List BOMFile → Reg → Reg → Except String (Reg × Reg)
  | [], bom, errs => Except.ok (bom, errs)
  | f :: rest, bom, errs =>
    match loadBOM f bom errs with
    | Except.error e => Except.error e
    | Except.ok (b, er) => loadAll rest b er

/-- One pass of the filter loop of `main`: delete every entry whose key
starts with module prefix `m`. -/
def deleteModule (reg : Reg) (m : String) : Reg :=
  reg.filter (fun kv => !(strStartsWith kv.1 m))

/-- The whole `--filter-modules` loop of `main`. -/
def filterStage (mods : List String) (reg : Reg) : Reg :=
  mods.foldl deleteModule reg

/-- The override loop of `main`: each existing entry whose key occurs in
the override table is replaced wholesale. -/
def applyOverrides (ovr : Reg) (reg : Reg) : Reg :=
  reg.map (fun kv =>
    match lookupReg ovr kv.1 with
    | some o => (kv.1, o)
    | none => kv)

/-- Building `regOverride` from the parsed override file. -/
def buildOverrides (ovs : List projectAndLicenses) : Reg :=
  ovs.foldl (fun r p => regSet r p.project p) []

/-- Escaping of the characters Go's encoder escapes with HTML escaping
disabled (model; control characters beyond the common three use the same
backslash forms). -/
def escChars : List Char → String
  | [] => ""
  | c :: rest =>
    (if c = '"' then "\\\""
     else if c = '\\' then "\\\\"
     else if c = '\n' then "\\n"
     else if c = '\t' then "\\t"
     else if c = '\r' then "\\r"
     else String.mk [c]) ++ escChars rest

/-- JSON string-content escaping. -/
def jsonEscape (s : String) : String :=
  escChars s.data

/-- A JSON string literal. -/
def jsonString (s : String) : String :=
  "\"" ++ jsonEscape s ++ "\""

/-- Decimal digits of `rem / den`, up to `fuel` digits. -/
def fracDigits : Nat → Nat → Nat → String
  | 0, _, _ => ""
  | _, _, 0 => ""
  | fuel + 1, den, rem =>
    toString (rem * 10 / den) ++ fracDigits fuel den (rem * 10 % den)

/-- Rendering of a confidence value as a JSON number (models Go's
shortest-round-trip `float64` formatting on the rationals that arise). -/
def renderConfidence (q : ℚ) : String :=
  (if q < 0 then "-" else "") ++
    (if q.num.natAbs % q.den = 0 then toString (q.num.natAbs / q.den)
     else toString (q.num.natAbs / q.den) ++ "." ++
       fracDigits 17 q.den (q.num.natAbs % q.den))

/-- A two-space-indented JSON object whose fields are already rendered;
`ind` is the indentation of the object's closing brace. -/
def jsonObject (ind : String) (fields : List String) : String :=
  if fields.isEmpty then "\x7b\x7d"
  else
    "\x7b\n" ++ joinWith (",\n") (fields.map (fun f => ind ++ "  " ++ f)) ++
      "\n" ++ ind ++ "\x7d"

/-- The fields of one serialized `license` (both have `omitempty`). -/
def licenseFields (l : license) : List String :=
  (if l.type = "" then [] else ["\"type\": " ++ jsonString l.type]) ++
    (if l.confidence = 0 then [] else ["\"confidence\": " ++ renderConfidence l.confidence])

/-- One serialized `license`. -/
def licenseJson (ind : String) (l : license) : String :=
  jsonObject ind (licenseFields l)

/-- A serialized license array at indentation `ind`. -/
def licensesJson (ind : String) (ls : List license) : String :=
  if ls.isEmpty then "[]"
  else
    "[\n" ++
      joinWith (",\n")
        (ls.map (fun l => ind ++ "  " ++ licenseJson (ind ++ "  ") l)) ++
      "\n" ++ ind ++ "]"

/-- The fields of one serialized record, in Go struct order with
`omitempty` on all but `project`. -/
def recordFields (ind : String) (r : projectAndLicenses) : List String :=
  ["\"project\": " ++ jsonString r.project] ++
    (if r.licenses.isEmpty then []
     else ["\"licenses\": " ++ licensesJson (ind ++ "  ") r.licenses]) ++
    (if r.error = "" then [] else ["\"error\": " ++ jsonString r.error]) ++
    (if r.vcs = "" then [] else ["\"vcs\": " ++ jsonString r.vcs])

/-- Go `MarshalJson`: `encoding/json` with HTML escaping off, two-space
indent, and the encoder's trailing newline. -/
def MarshalJson (bom : List projectAndLicenses) : String :=
  (if bom.isEmpty then "[]"
   else
     "[\n" ++
       joinWith (",\n")
         (bom.map (fun r => "  " ++ jsonObject ("  ") (recordFields ("  ") r))) ++
       "\n]") ++ "\n"

/-- The command-line inputs of one run, post flag parsing:
`--override-file` content (already decoded), the input files of `--in`
in directory order, and `--filter-modules`. -/
structure MergerConfig where
  overrides : Option (List projectAndLicenses)
  files : List BOMFile
  filterModules : List String

/-- The transformation stages of `main` after ingestion, ending with the
two record arrays that `writeBOM` serializes. -/
def postLoad (detect : String → Except String String) (ovr : Reg) (mods : List String)
    (bom errs : Reg) : Except String (List projectAndLicenses × List projectAndLicenses) :=
  match discoverVCS detect (applyOverrides ovr (filterStage mods (cleanupLicense bom))) with
  | Except.error e => Except.error e
  | Except.ok bomv =>
    match discoverVCS detect errs with
    | Except.error e => Except.error e
    | Except.ok errsv => Except.ok (writeBOMList bomv, writeBOMList errsv)

/-- The whole of `main`: ingest every file, then run the transformation
stages.  An `Except.error` result models the program panicking before any
output file is written. -/
def mainPipeline (detect : String → Except String String) (cfg : MergerConfig) :
    Except String (List projectAndLicenses × List projectAndLicenses) :=
  match loadAll cfg.files [] [] with
  | Except.error e => Except.error e
  | Except.ok (bom, errs) =>
    postLoad detect
      (match cfg.overrides with
       | some l => buildOverrides l
       | none => []) cfg.filterModules bom errs

/-- Spec-side license selection: the first guess whose confidence is
greatest ("select the guess with the strictly-greatest confidence value,
first occurrence wins on ties"). -/
def specBestGuess (ls : List license) : Option license :=
  ls.find? (fun l => ls.all (fun l2 => decide (l2.confidence ≤ l.confidence)))

/-- Spec-side reduction of one record, following the spec's words: with
more than one guess, replace the list by the single first-maximal guess;
otherwise leave the record untouched. -/
def specReduce (info : projectAndLicenses) : projectAndLicenses :=
  if 1 < info.licenses.length then
    match specBestGuess info.licenses with
    | some l => { info with licenses := [l] }
    | none => info
  else info

/-- No two entries of the table share a key. -/
def NodupKeys (reg : Reg) : Prop := (reg.map Prod.fst).Nodup

/-- Every entry's record carries its own key as project identifier. -/
def KeyConsistent (reg : Reg) : Prop := ∀ kv ∈ reg, kv.2.project = kv.1

/-- Nothing is lexicographically below the empty list. -/
theorem not_list_lt_nil (as : List Char) : ¬ List.lt as [] := by
  intro h
  cases h

/-- `strLeB` decides the lexicographic `≤` on character lists. -/
theorem strLeB_iff : ∀ as bs : List Char, strLeB as bs = true ↔ ¬ List.lt bs as := by
  intro as
  induction as with
  | nil =>
    intro bs
    simp [strLeB, not_list_lt_nil]
  | cons a as ih =>
    intro bs
    cases bs with
    | nil =>
      simp only [strLeB, Bool.false_eq_true, false_iff, not_not]
      exact List.lt.nil a as
    | cons b bs =>
      by_cases hab : a < b
      · simp only [strLeB, if_pos hab, true_iff]
        intro h
        cases h with
        | head _ _ h1 => exact absurd h1 (lt_asymm hab)
        | tail h1 h2 h3 => exact h2 hab
      · by_cases hba : b < a
        · simp only [strLeB, if_neg hab, if_pos hba, Bool.false_eq_true, false_iff, not_not]
          exact List.lt.head _ _ hba
        · simp only [strLeB, if_neg hab, if_neg hba, ih bs]
          constructor
          · intro h hlt
            cases hlt with
            | head _ _ h1 => exact hba h1
            | tail _ _ h3 => exact h h3
          · intro h hlt
            exact h (List.lt.tail hba hab hlt)

/-- The Go comparison agrees with Mathlib's linear order on `String`. -/
theorem strLe_iff (a b : String) : strLe a b = true ↔ a ≤ b := by
  rw [String.le_iff_toList_le, ← not_lt]
  have h1 := strLeB_iff a.data b.data
  have h2 := List.lt_iff_lex_lt b.data a.data
  constructor
  · intro h hlt
    exact (h1.mp h) (h2.mpr hlt)
  · intro h
    exact h1.mpr (fun hlt => h (h2.mp hlt))

instance strLeIsTotal : IsTotal String (fun a b => strLe a b = true) := by
  constructor
  intro a b
  simp only [strLe_iff]
  exact le_total a b

instance strLeIsTrans : IsTrans String (fun a b => strLe a b = true) := by
  constructor
  intro a b c
  simp only [strLe_iff]
  exact le_trans

instance strLeIsAntisymm : IsAntisymm String (fun a b => strLe a b = true) := by
  constructor
  intro a b
  simp only [strLe_iff]
  exact le_antisymm

theorem lookupReg_cons (kv : String × projectAndLicenses) (reg : Reg) (k : String) :
    lookupReg (kv :: reg) k = if kv.1 == k then some kv.2 else lookupReg reg k := by
  by_cases h : kv.1 == k
  · simp [lookupReg, List.find?_cons, h]
  · simp only [Bool.not_eq_true] at h
    simp [lookupReg, List.find?_cons, h]

/-- A successful lookup exhibits a member of the table. -/
theorem mem_of_lookupReg {reg : Reg} {k : String} {v : projectAndLicenses}
    (h : lookupReg reg k = some v) : (k, v) ∈ reg := by
  unfold lookupReg at h
  cases hf : reg.find? (fun kv => kv.1 == k) with
  | none => rw [hf] at h; simp at h
  | some kv =>
    rw [hf] at h
    simp only [Option.map_some', Option.some.injEq] at h
    have h1 := List.find?_some hf
    have h2 : kv ∈ reg := List.mem_of_find?_eq_some hf
    have h3 : kv.1 = k := by simpa using h1
    have : kv = (k, v) := by
      cases kv
      simp only [Prod.mk.injEq]
      exact ⟨h3, h⟩
    rwa [this] at h2

theorem lookupReg_eq_none_iff (reg : Reg) (k : String) :
    lookupReg reg k = none ↔ ∀ v, (k, v) ∉ reg := by
  unfold lookupReg
  rw [Option.map_eq_none', List.find?_eq_none]
  constructor
  · intro h v hv
    have := h (k, v) hv
    simp at this
  · intro h kv hkv
    obtain ⟨k1, v1⟩ := kv
    simp only [Bool.not_eq_true, beq_eq_false_iff_ne, ne_eq]
    intro heq
    subst heq
    exact h v1 hkv

/-- In a table without duplicate keys, membership determines lookup. -/
theorem lookupReg_of_mem_nodup {reg : Reg} {k : String} {v : projectAndLicenses}
    (hn : NodupKeys reg) (hm : (k, v) ∈ reg) : lookupReg reg k = some v := by
  induction reg with
  | nil => cases hm
  | cons kv rest ih =>
    rw [lookupReg_cons]
    rcases List.mem_cons.mp hm with heq | hmem
    · rw [← heq]
      simp
    · have hk : k ∈ rest.map Prod.fst := List.mem_map.mpr ⟨(k, v), hmem, rfl⟩
      have hkv1 : kv.1 ≠ k := by
        intro h
        have := (List.nodup_cons.mp hn).1
        rw [h] at this
        exact this hk
      have hne : ¬(kv.1 == k) = true := by simpa using hkv1
      rw [if_neg hne]
      exact ih (List.nodup_cons.mp hn).2 hmem

/-- The three table invariants the pipeline maintains: no duplicate keys,
each record carries its key as project, and no empty key. -/
def GoodReg (reg : Reg) : Prop :=
  NodupKeys reg ∧ KeyConsistent reg ∧ ∀ kv ∈ reg, kv.1 ≠ ""

theorem goodReg_nil : GoodReg [] := by
  refine ⟨List.nodup_nil, ?_, ?_⟩ <;> intro kv hkv <;> cases hkv

theorem keys_regSet (reg : Reg) (k : String) (v : projectAndLicenses) :
    (regSet reg k v).map Prod.fst =
      if reg.any (fun kv => kv.1 == k) then reg.map Prod.fst else reg.map Prod.fst ++ [k] := by
  unfold regSet
  by_cases h : reg.any (fun kv => kv.1 == k)
  · rw [if_pos h, if_pos h, List.map_map]
    apply List.map_congr_left
    intro kv _
    by_cases hk : (kv.1 == k) = true
    · have : kv.1 = k := by simpa using hk
      simp [Function.comp, hk, this]
    · simp [Function.comp, hk]
  · rw [if_neg h, if_neg h, List.map_append]
    rfl

theorem nodupKeys_regSet {reg : Reg} {k : String} {v : projectAndLicenses}
    (h : NodupKeys reg) : NodupKeys (regSet reg k v) := by
  unfold NodupKeys
  rw [keys_regSet]
  by_cases ha : reg.any (fun kv => kv.1 == k)
  · rwa [if_pos ha]
  · rw [if_neg ha]
    have hk : k ∉ reg.map Prod.fst := by
      intro hmem
      obtain ⟨kv, hkv, hfst⟩ := List.mem_map.mp hmem
      exact ha (List.any_eq_true.mpr ⟨kv, hkv, by simp [hfst]⟩)
    rw [List.nodup_append]
    exact ⟨h, List.nodup_singleton k, by simpa [List.disjoint_singleton] using hk⟩

theorem keyConsistent_regSet {reg : Reg} {k : String} {v : projectAndLicenses}
    (h : KeyConsistent reg) (hv : v.project = k) : KeyConsistent (regSet reg k v) := by
  unfold KeyConsistent regSet
  by_cases ha : reg.any (fun kv => kv.1 == k)
  · rw [if_pos ha]
    intro kv hkv
    obtain ⟨kv0, hkv0, heq⟩ := List.mem_map.mp hkv
    rw [← heq]
    by_cases hk : (kv0.1 == k) = true
    · simp only [hk, if_pos]
      exact hv
    · simp only [hk]
      rw [if_neg (by simp [hk])]
      exact h kv0 hkv0
  · rw [if_neg ha]
    intro kv hkv
    rcases List.mem_append.mp hkv with h1 | h2
    · exact h kv h1
    · have : kv = (k, v) := by simpa using h2
      rw [this]
      exact hv

theorem keysNE_regSet {reg : Reg} {k : String} {v : projectAndLicenses}
    (h : ∀ kv ∈ reg, kv.1 ≠ "") (hk : k ≠ "") : ∀ kv ∈ regSet reg k v, kv.1 ≠ "" := by
  unfold regSet
  by_cases ha : reg.any (fun kv => kv.1 == k)
  · rw [if_pos ha]
    intro kv hkv
    obtain ⟨kv0, hkv0, heq⟩ := List.mem_map.mp hkv
    rw [← heq]
    by_cases hq : (kv0.1 == k) = true
    · simp only [hq, if_pos]
      exact hk
    · simp only [hq]
      rw [if_neg (by simp [hq])]
      exact h kv0 hkv0
  · rw [if_neg ha]
    intro kv hkv
    rcases List.mem_append.mp hkv with h1 | h2
    · exact h kv h1
    · have : kv = (k, v) := by simpa using h2
      rw [this]
      exact hk

theorem goodReg_regSet {reg : Reg} {k : String} {v : projectAndLicenses}
    (h : GoodReg reg) (hv : v.project = k) (hk : k ≠ "") : GoodReg (regSet reg k v) :=
  ⟨nodupKeys_regSet h.1, keyConsistent_regSet h.2.1 hv, keysNE_regSet h.2.2 hk⟩

theorem ingestDoc_cons (reg : Reg) (p : projectAndLicenses) (rest : BOMDoc) :
    ingestDoc reg (p :: rest) =
      ingestDoc (if p.project = "" then reg else regSet reg p.project p) rest := rfl

theorem goodReg_ingestDoc (doc : BOMDoc) :
    ∀ reg : Reg, GoodReg reg → GoodReg (ingestDoc reg doc) := by
  induction doc with
  | nil => intro reg h; exact h
  | cons p rest ih =>
    intro reg h
    rw [ingestDoc_cons]
    by_cases hp : p.project = ""
    · rw [if_pos hp]; exact ih reg h
    · rw [if_neg hp]; exact ih _ (goodReg_regSet h rfl hp)

theorem goodReg_loadBOMAux (docs : BOMFile) :
    ∀ (g : Bool) (bom errs b e : Reg), GoodReg bom → GoodReg errs →
      loadBOMAux docs g bom errs = Except.ok (b, e) → GoodReg b ∧ GoodReg e := by
  induction docs with
  | nil =>
    intro g bom errs b e hb he h
    simp only [loadBOMAux] at h
    injection h with h1
    injection h1 with h2 h3
    rw [← h2, ← h3]
    exact ⟨hb, he⟩
  | cons d rest ih =>
    intro g bom errs b e hb he h
    cases d with
    | error s => simp [loadBOMAux] at h
    | ok doc =>
      cases g with
      | true =>
        rw [show loadBOMAux (Except.ok doc :: rest) true bom errs =
              loadBOMAux rest false (ingestDoc bom doc) errs from rfl] at h
        exact ih false _ _ b e (goodReg_ingestDoc doc bom hb) he h
      | false =>
        rw [show loadBOMAux (Except.ok doc :: rest) false bom errs =
              loadBOMAux rest false bom (ingestDoc errs doc) from rfl] at h
        exact ih false _ _ b e hb (goodReg_ingestDoc doc errs he) h

theorem goodReg_loadAll (files : List BOMFile) :
    ∀ bom errs b e : Reg, GoodReg bom → GoodReg errs →
      loadAll files bom errs = Except.ok (b, e) → GoodReg b ∧ GoodReg e := by
  induction files with
  | nil =>
    intro bom errs b e hb he h
    simp only [loadAll] at h
    injection h with h1
    injection h1 with h2 h3
    rw [← h2, ← h3]
    exact ⟨hb, he⟩
  | cons f rest ih =>
    intro bom errs b e hb he h
    simp only [loadAll] at h
    cases hf : loadBOM f bom errs with
    | error s => rw [hf] at h; cases h
    | ok p =>
      rw [hf] at h
      obtain ⟨g1, g2⟩ :=
        goodReg_loadBOMAux f true bom errs p.1 p.2 hb he (by rw [← hf]; rfl)
      exact ih p.1 p.2 b e g1 g2 h

theorem keys_cleanupLicense (reg : Reg) :
    (cleanupLicense reg).map Prod.fst = reg.map Prod.fst := by
  unfold cleanupLicense
  rw [List.map_map]
  rfl

theorem cleanupRecord_project (info : projectAndLicenses) :
    (cleanupRecord info).project = info.project := by
  unfold cleanupRecord
  split <;> rfl

theorem cleanupRecord_length (info : projectAndLicenses) :
    (cleanupRecord info).licenses.length ≤ 1 := by
  unfold cleanupRecord
  split
  · simp
  · next h => exact Nat.le_of_not_lt h

theorem goodReg_cleanupLicense {reg : Reg} (h : GoodReg reg) :
    GoodReg (cleanupLicense reg) := by
  refine ⟨?_, ?_, ?_⟩
  · unfold NodupKeys
    rw [keys_cleanupLicense]
    exact h.1
  · intro kv hkv
    obtain ⟨kv0, hkv0, heq⟩ := List.mem_map.mp hkv
    rw [← heq]
    show (cleanupRecord kv0.2).project = kv0.1
    rw [cleanupRecord_project]
    exact h.2.1 kv0 hkv0
  · intro kv hkv
    obtain ⟨kv0, hkv0, heq⟩ := List.mem_map.mp hkv
    rw [← heq]
    exact h.2.2 kv0 hkv0

theorem filterStage_sublist (mods : List String) :
    ∀ reg : Reg, (filterStage mods reg).Sublist reg := by
  induction mods with
  | nil => intro reg; exact List.Sublist.refl reg
  | cons m ms ih =>
    intro reg
    exact (ih (deleteModule reg m)).trans (List.filter_sublist reg)

theorem goodReg_filterStage {reg : Reg} (mods : List String) (h : GoodReg reg) :
    GoodReg (filterStage mods reg) := by
  have hsub := filterStage_sublist mods reg
  refine ⟨?_, ?_, ?_⟩
  · exact List.Nodup.sublist (hsub.map Prod.fst) h.1
  · intro kv hkv
    exact h.2.1 kv (hsub.subset hkv)
  · intro kv hkv
    exact h.2.2 kv (hsub.subset hkv)

theorem keys_applyOverrides (ovr reg : Reg) :
    (applyOverrides ovr reg).map Prod.fst = reg.map Prod.fst := by
  unfold applyOverrides
  rw [List.map_map]
  apply List.map_congr_left
  intro kv _
  cases h : lookupReg ovr kv.1 <;> simp [Function.comp, h]

theorem goodReg_applyOverrides {ovr reg : Reg} (hovr : KeyConsistent ovr)
    (h : GoodReg reg) : GoodReg (applyOverrides ovr reg) := by
  refine ⟨?_, ?_, ?_⟩
  · unfold NodupKeys
    rw [keys_applyOverrides]
    exact h.1
  · intro kv hkv
    obtain ⟨kv0, hkv0, heq⟩ := List.mem_map.mp hkv
    rw [← heq]
    cases ho : lookupReg ovr kv0.1 with
    | none => simp only [ho]; exact h.2.1 kv0 hkv0
    | some o =>
      simp only [ho]
      exact hovr (kv0.1, o) (mem_of_lookupReg ho)
  · intro kv hkv
    obtain ⟨kv0, hkv0, heq⟩ := List.mem_map.mp hkv
    rw [← heq]
    cases ho : lookupReg ovr kv0.1 with
    | none => simp only [ho]; exact h.2.2 kv0 hkv0
    | some o => simp only [ho]; exact h.2.2 kv0 hkv0

theorem buildOverrides_good (ovs : List projectAndLicenses) :
    NodupKeys (buildOverrides ovs) ∧ KeyConsistent (buildOverrides ovs) := by
  have aux : ∀ (l : List projectAndLicenses) (acc : Reg), NodupKeys acc → KeyConsistent acc →
      NodupKeys (l.foldl (fun r p => regSet r p.project p) acc) ∧
        KeyConsistent (l.foldl (fun r p => regSet r p.project p) acc) := by
    intro l
    induction l with
    | nil => intro acc h1 h2; exact ⟨h1, h2⟩
    | cons p rest ih =>
      intro acc h1 h2
      simp only [List.foldl_cons]
      exact ih _ (nodupKeys_regSet h1) (keyConsistent_regSet h2 rfl)
  exact aux ovs [] List.nodup_nil (fun kv hkv => by cases hkv)

theorem discoverRecord_ok_fields {detect : String → Except String String} {k : String}
    {info v : projectAndLicenses} (h : discoverRecord detect k info = Except.ok v) :
    v.project = info.project ∧ v.licenses = info.licenses := by
  cases hd : detect info.project with
  | error e => simp only [discoverRecord, hd] at h; cases h
  | ok vcs =>
    simp only [discoverRecord, hd] at h
    by_cases hv : vcs ≠ ""
    · rw [if_pos hv] at h
      injection h with h1
      rw [← h1]
      exact ⟨rfl, rfl⟩
    · rw [if_neg hv] at h
      by_cases hp : strStartsWith k ("github.com/") = true
      · rw [if_pos hp] at h
        cases hs : goSliceTo (strSplitSlash k) 3 with
        | error e => rw [hs] at h; cases h
        | ok parts =>
          rw [hs] at h
          injection h with h1
          rw [← h1]
          exact ⟨rfl, rfl⟩
      · rw [if_neg hp] at h
        injection h with h1
        rw [← h1]
        exact ⟨rfl, rfl⟩

/-- The per-entry rewrite `discoverVCS` performs when every entry succeeds. -/
def discoveredEntry (detect : String → Except String String)
    (kv : String × projectAndLicenses) : String × projectAndLicenses :=
  (kv.1, ((discoverRecord detect kv.1 kv.2).toOption).getD kv.2)

theorem discoverVCS_ok_of_all {detect : String → Except String String} :
    ∀ reg : Reg, (∀ kv ∈ reg, ∃ v, discoverRecord detect kv.1 kv.2 = Except.ok v) →
      discoverVCS detect reg = Except.ok (reg.map (discoveredEntry detect)) := by
  intro reg
  induction reg with
  | nil => intro _; rfl
  | cons kv rest ih =>
    intro h
    obtain ⟨v, hv⟩ := h kv (List.mem_cons_self kv rest)
    have hrest := ih (fun kv2 hkv2 => h kv2 (List.mem_cons_of_mem kv hkv2))
    simp only [discoverVCS, hv, hrest, List.map_cons]
    simp [discoveredEntry, hv, Except.toOption]

theorem discoverVCS_error_of_mem {detect : String → Except String String}
    {kv : String × projectAndLicenses} :
    ∀ reg : Reg, kv ∈ reg → (∀ v, discoverRecord detect kv.1 kv.2 ≠ Except.ok v) →
      ∃ e, discoverVCS detect reg = Except.error e := by
  intro reg
  induction reg with
  | nil => intro h _; cases h
  | cons a rest ih =>
    intro hmem hfail
    cases hd : discoverRecord detect a.1 a.2 with
    | error e => exact ⟨e, by simp [discoverVCS, hd]⟩
    | ok v =>
      rcases List.mem_cons.mp hmem with heq | hm
      · rw [heq] at hfail
        exact absurd hd (hfail v)
      · obtain ⟨e, he⟩ := ih hm hfail
        exact ⟨e, by simp [discoverVCS, hd, he]⟩

theorem discoverVCS_ok_inv {detect : String → Except String String} :
    ∀ {reg r : Reg}, discoverVCS detect reg = Except.ok r →
      List.Forall₂
        (fun kv kv2 => kv2.1 = kv.1 ∧ kv2.2.project = kv.2.project ∧
          kv2.2.licenses = kv.2.licenses) reg r := by
  intro reg
  induction reg with
  | nil =>
    intro r h
    injection h with h1
    rw [← h1]
    exact List.Forall₂.nil
  | cons a rest ih =>
    intro r h
    simp only [discoverVCS] at h
    cases hd : discoverRecord detect a.1 a.2 with
    | error e => rw [hd] at h; cases h
    | ok v =>
      rw [hd] at h
      cases hrest : discoverVCS detect rest with
      | error e => rw [hrest] at h; cases h
      | ok r2 =>
        rw [hrest] at h
        injection h with h1
        rw [← h1]
        obtain ⟨hp, hl⟩ := discoverRecord_ok_fields hd
        exact List.Forall₂.cons ⟨rfl, hp, hl⟩ (ih hrest)

theorem forall2_keys {R : String × projectAndLicenses → String × projectAndLicenses → Prop}
    (hR : ∀ kv kv2, R kv kv2 → kv2.1 = kv.1) :
    ∀ {reg r : Reg}, List.Forall₂ R reg r → r.map Prod.fst = reg.map Prod.fst := by
  intro reg r h
  induction h with
  | nil => rfl
  | @cons a b l1 l2 hab htail ih =>
    simp only [List.map_cons, ih]
    rw [hR a b hab]

theorem forall2_mem_right {α : Type} {R : α → α → Prop} :
    ∀ {l1 l2 : List α}, List.Forall₂ R l1 l2 → ∀ b ∈ l2, ∃ a ∈ l1, R a b := by
  intro l1 l2 h
  induction h with
  | nil => intro b hb; cases hb
  | @cons a0 b0 l1 l2 hab htail ih =>
    intro b hb
    rcases List.mem_cons.mp hb with heq | hm
    · exact ⟨a0, List.mem_cons_self _ _, heq ▸ hab⟩
    · obtain ⟨a, ha, hr⟩ := ih b hm
      exact ⟨a, List.mem_cons_of_mem _ ha, hr⟩

theorem goodReg_discoverVCS {detect : String → Except String String} {reg r : Reg}
    (h : discoverVCS detect reg = Except.ok r) (hg : GoodReg reg) : GoodReg r := by
  have hf := discoverVCS_ok_inv h
  have hkeys := forall2_keys (fun kv kv2 hr => hr.1) hf
  refine ⟨?_, ?_, ?_⟩
  · unfold NodupKeys
    rw [hkeys]
    exact hg.1
  · intro kv2 hkv2
    obtain ⟨kv, hkv, hr⟩ := forall2_mem_right hf kv2 hkv2
    rw [hr.1, hr.2.1]
    exact hg.2.1 kv hkv
  · intro kv2 hkv2
    obtain ⟨kv, hkv, hr⟩ := forall2_mem_right hf kv2 hkv2
    rw [hr.1]
    exact hg.2.2 kv hkv

theorem writeBOMList_pairwise {reg : Reg} (hn : NodupKeys reg) (hk : KeyConsistent reg) :
    (writeBOMList reg).Pairwise (fun a b => a.project < b.project) := by
  unfold writeBOMList
  rw [List.pairwise_filterMap]
  have hsorted : List.Pairwise (fun a b => strLe a b = true) (Keys reg) :=
    List.sorted_insertionSort _ _
  have hnodup : (Keys reg).Nodup := ((List.perm_insertionSort _ _).nodup_iff).mpr hn
  have hlt : List.Pairwise (fun a b : String => a < b) (Keys reg) := by
    have hand := hsorted.and hnodup
    exact hand.imp (fun hab => lt_of_le_of_ne ((strLe_iff _ _).mp hab.1) hab.2)
  apply hlt.imp
  intro a b hab v hv v' hv'
  have hva : v.project = a := hk (a, v) (mem_of_lookupReg hv)
  have hvb : v'.project = b := hk (b, v') (mem_of_lookupReg hv')
  rw [hva, hvb]
  exact hab

theorem mem_writeBOMList {reg : Reg} {r : projectAndLicenses}
    (h : r ∈ writeBOMList reg) : ∃ k, (k, r) ∈ reg := by
  unfold writeBOMList at h
  obtain ⟨k, _, hk⟩ := List.mem_filterMap.mp h
  exact ⟨k, mem_of_lookupReg hk⟩

theorem nodupKeys_perm {r1 r2 : Reg} (hp : r1.Perm r2) (h : NodupKeys r1) : NodupKeys r2 :=
  ((hp.map Prod.fst).nodup_iff).mp h

theorem lookupReg_perm {r1 r2 : Reg} (hn : NodupKeys r1) (hp : r1.Perm r2) (k : String) :
    lookupReg r1 k = lookupReg r2 k := by
  have hn2 := nodupKeys_perm hp hn
  cases h : lookupReg r1 k with
  | some v =>
    exact (lookupReg_of_mem_nodup hn2 (hp.subset (mem_of_lookupReg h))).symm
  | none =>
    symm
    rw [lookupReg_eq_none_iff] at h ⊢
    intro v hv
    exact h v (hp.symm.subset hv)

theorem Keys_perm {r1 r2 : Reg} (hp : r1.Perm r2) : Keys r1 = Keys r2 := by
  have hperm : (Keys r1).Perm (Keys r2) :=
    (List.perm_insertionSort _ _).trans
      ((hp.map Prod.fst).trans (List.perm_insertionSort _ _).symm)
  exact List.eq_of_perm_of_sorted hperm
    (List.sorted_insertionSort _ _) (List.sorted_insertionSort _ _)

theorem writeBOMList_perm {r1 r2 : Reg} (hn : NodupKeys r1) (hp : r1.Perm r2) :
    writeBOMList r1 = writeBOMList r2 := by
  unfold writeBOMList
  rw [Keys_perm hp]
  rw [show (fun k => lookupReg r1 k) = fun k => lookupReg r2 k from
    funext (lookupReg_perm hn hp)]

/-- The maximum confidence in `ls`, seeded with `b`. -/
def listMax (ls : List license) (b : ℚ) : ℚ :=
  ls.foldr (fun l m => max l.confidence m) b

theorem listMax_cons (l : license) (ls : List license) (b : ℚ) :
    listMax (l :: ls) b = max l.confidence (listMax ls b) := rfl

theorem le_listMax_base (ls : List license) (b : ℚ) : b ≤ listMax ls b := by
  induction ls with
  | nil => exact le_refl b
  | cons l rest ih =>
    rw [listMax_cons]
    exact ih.trans (le_max_right _ _)

theorem mem_le_listMax {ls : List license} {x : license} (hx : x ∈ ls) (b : ℚ) :
    x.confidence ≤ listMax ls b := by
  induction ls with
  | nil => cases hx
  | cons l rest ih =>
    rw [listMax_cons]
    rcases List.mem_cons.mp hx with heq | hm
    · rw [heq]
      exact le_max_left _ _
    · exact (ih hm).trans (le_max_right _ _)

theorem listMax_le {c b : ℚ} {ls : List license}
    (h : ∀ x ∈ ls, x.confidence ≤ c) (hb : b ≤ c) : listMax ls b ≤ c := by
  induction ls with
  | nil => exact hb
  | cons l rest ih =>
    rw [listMax_cons]
    exact max_le (h l (List.mem_cons_self _ _))
      (ih (fun x hx => h x (List.mem_cons_of_mem _ hx)))

theorem listMax_max (a b : ℚ) (ls : List license) :
    listMax ls (max a b) = max a (listMax ls b) := by
  induction ls with
  | nil => rfl
  | cons l rest ih =>
    rw [listMax_cons, listMax_cons, ih, max_left_comm]

theorem listMax_attained (ls : List license) (b : ℚ) :
    listMax ls b = b ∨ ∃ x ∈ ls, listMax ls b = x.confidence := by
  induction ls with
  | nil => exact Or.inl rfl
  | cons l rest ih =>
    rw [listMax_cons]
    rcases le_total l.confidence (listMax rest b) with h | h
    · rw [max_eq_right h]
      rcases ih with h1 | ⟨x, hx, h2⟩
      · exact Or.inl h1
      · exact Or.inr ⟨x, List.mem_cons_of_mem _ hx, h2⟩
    · rw [max_eq_left h]
      exact Or.inr ⟨l, List.mem_cons_self _ _, rfl⟩

theorem scanBest_fst : ∀ (ls : List license) (score : ℚ) (i idx : Nat),
    (scanBest ls score i idx).1 = listMax ls score := by
  intro ls
  induction ls with
  | nil => intro score i idx; rfl
  | cons l rest ih =>
    intro score i idx
    simp only [scanBest, listMax_cons]
    by_cases h : score < l.confidence
    · rw [if_pos h, ih]
      calc listMax rest l.confidence
          = listMax rest (max l.confidence score) := by rw [max_eq_left h.le]
        _ = max l.confidence (listMax rest score) := listMax_max _ _ _
    · rw [if_neg h, ih]
      exact (max_eq_right ((le_of_not_lt h).trans (le_listMax_base rest score))).symm

theorem scanBest_snd_of_le : ∀ (ls : List license) (score : ℚ) (i idx : Nat),
    (∀ l ∈ ls, l.confidence ≤ score) → (scanBest ls score i idx).2 = idx := by
  intro ls
  induction ls with
  | nil => intro score i idx _; rfl
  | cons l rest ih =>
    intro score i idx h
    simp only [scanBest]
    rw [if_neg (not_lt_of_le (h l (List.mem_cons_self _ _)))]
    exact ih score (i + 1) idx (fun x hx => h x (List.mem_cons_of_mem _ hx))

theorem scanBest_snd_of_exists : ∀ (ls : List license) (score : ℚ) (i idx : Nat),
    (∃ l ∈ ls, score < l.confidence) →
      (scanBest ls score i idx).2 =
        i + ls.findIdx (fun l => decide (listMax ls score ≤ l.confidence)) := by
  intro ls
  induction ls with
  | nil =>
    intro score i idx h
    obtain ⟨l, hl, _⟩ := h
    cases hl
  | cons l rest ih =>
    intro score i idx hex
    simp only [scanBest]
    by_cases h : score < l.confidence
    · rw [if_pos h]
      by_cases hall : ∀ x ∈ rest, x.confidence ≤ l.confidence
      · rw [scanBest_snd_of_le rest l.confidence (i + 1) i hall]
        have hM : listMax (l :: rest) score = l.confidence := by
          rw [listMax_cons]
          exact max_eq_left (listMax_le hall h.le)
        rw [List.findIdx_cons]
        have hd : decide (listMax (l :: rest) score ≤ l.confidence) = true := by
          rw [hM]
          exact decide_eq_true (le_refl _)
        rw [hd]
        simp
      · push_neg at hall
        obtain ⟨x, hx, hxl⟩ := hall
        rw [ih l.confidence (i + 1) i ⟨x, hx, hxl⟩]
        have hMeq : listMax rest l.confidence = listMax (l :: rest) score := by
          rw [listMax_cons]
          calc listMax rest l.confidence
              = listMax rest (max l.confidence score) := by rw [max_eq_left h.le]
            _ = max l.confidence (listMax rest score) := listMax_max _ _ _
        have hMgt : l.confidence < listMax (l :: rest) score := by
          rw [← hMeq]
          exact lt_of_lt_of_le hxl (mem_le_listMax hx l.confidence)
        rw [List.findIdx_cons]
        have hdl : decide (listMax (l :: rest) score ≤ l.confidence) = false := by
          rw [decide_eq_false_iff_not]
          exact not_le_of_lt hMgt
        rw [hdl]
        rw [show (fun y : license => decide (listMax rest l.confidence ≤ y.confidence)) =
              (fun y : license => decide (listMax (l :: rest) score ≤ y.confidence)) from by
            funext y
            rw [hMeq]]
        simp only [cond_false]
        omega
    · rw [if_neg h]
      have hle : l.confidence ≤ score := le_of_not_lt h
      obtain ⟨y, hy, hys⟩ := hex
      have hyrest : y ∈ rest := by
        rcases List.mem_cons.mp hy with heq | hm
        · rw [heq] at hys
          exact absurd hys h
        · exact hm
      rw [ih score (i + 1) idx ⟨y, hyrest, hys⟩]
      have hMeq : listMax rest score = listMax (l :: rest) score := by
        rw [listMax_cons]
        exact (max_eq_right (hle.trans (le_listMax_base rest score))).symm
      have hMgt : l.confidence < listMax (l :: rest) score := by
        rw [← hMeq]
        exact lt_of_le_of_lt hle (lt_of_lt_of_le hys (mem_le_listMax hyrest score))
      rw [List.findIdx_cons]
      have hdl : decide (listMax (l :: rest) score ≤ l.confidence) = false := by
        rw [decide_eq_false_iff_not]
        exact not_le_of_lt hMgt
      rw [hdl]
      rw [show (fun y : license => decide (listMax rest score ≤ y.confidence)) =
            (fun y : license => decide (listMax (l :: rest) score ≤ y.confidence)) from by
          funext y
          rw [hMeq]]
      simp only [cond_false]
      omega

theorem getD_findIdx_of_find? {α : Type} {p : α → Bool} {a : α} (d : α) :
    ∀ {ls : List α}, ls.find? p = some a → ls.getD (ls.findIdx p) d = a := by
  intro ls
  induction ls with
  | nil => intro h; cases h
  | cons x rest ih =>
    intro h
    cases hp : p x with
    | true =>
      rw [List.find?_cons_of_pos _ hp] at h
      injection h with h1
      rw [List.findIdx_cons, hp, cond_true, List.getD_cons_zero]
      exact h1
    | false =>
      rw [List.find?_cons_of_neg _ (by simp [hp])] at h
      rw [List.findIdx_cons, hp, cond_false, List.getD_cons_succ]
      exact ih h

theorem find?_congr_mem {α : Type} {p q : α → Bool} :
    ∀ {ls : List α}, (∀ x ∈ ls, p x = q x) → ls.find? p = ls.find? q := by
  intro ls
  induction ls with
  | nil => intro _; rfl
  | cons x rest ih =>
    intro h
    have hx := h x (List.mem_cons_self _ _)
    cases hp : p x with
    | true =>
      have hq : q x = true := by rw [← hx]; exact hp
      rw [List.find?_cons_of_pos _ hp, List.find?_cons_of_pos _ hq]
    | false =>
      have hq : q x = false := by rw [← hx]; exact hp
      rw [List.find?_cons_of_neg _ (by simp [hp]), List.find?_cons_of_neg _ (by simp [hq])]
      exact ih (fun y hy => h y (List.mem_cons_of_mem _ hy))

theorem find?_isSome_of_mem {α : Type} (p : α → Bool) {x : α} {ls : List α}
    (hx : x ∈ ls) (hpx : p x = true) : ∃ a, ls.find? p = some a := by
  cases h : ls.find? p with
  | some a => exact ⟨a, rfl⟩
  | none =>
    rw [List.find?_eq_none] at h
    exact absurd hpx (h x hx)

/-- On a non-empty list of non-negative confidences, the index the Go loop
selects holds the first guess of maximal confidence. -/
theorem pick_eq_firstMax {ls : List license} (hne : ls ≠ [])
    (h : ∀ l ∈ ls, 0 ≤ l.confidence) :
    ∃ a, specBestGuess ls = some a ∧
      ls.getD (scanBest ls 0 0 0).2 defaultLicense = a := by
  have hpq : ∀ x ∈ ls, (ls.all (fun l2 => decide (l2.confidence ≤ x.confidence))) =
      decide (listMax ls 0 ≤ x.confidence) := by
    intro x hx
    by_cases hcase : ∀ y ∈ ls, y.confidence ≤ x.confidence
    · have h1 : (ls.all (fun l2 => decide (l2.confidence ≤ x.confidence))) = true :=
        List.all_eq_true.mpr (fun y hy => decide_eq_true (hcase y hy))
      have h2 : decide (listMax ls 0 ≤ x.confidence) = true :=
        decide_eq_true (listMax_le hcase (h x hx))
      rw [h1, h2]
    · push_neg at hcase
      obtain ⟨y, hy, hxy⟩ := hcase
      have h1 : (ls.all (fun l2 => decide (l2.confidence ≤ x.confidence))) = false :=
        List.all_eq_false.mpr ⟨y, hy, by
          rw [decide_eq_true_eq]
          exact not_le_of_lt hxy⟩
      have h2 : decide (listMax ls 0 ≤ x.confidence) = false := by
        rw [decide_eq_false_iff_not]
        intro hle
        exact absurd (le_trans (mem_le_listMax hy 0) hle) (not_le_of_lt hxy)
      rw [h1, h2]
  have hex : ∃ x ∈ ls, decide (listMax ls 0 ≤ x.confidence) = true := by
    rcases listMax_attained ls 0 with h0 | ⟨x, hx, hxe⟩
    · obtain ⟨x, hx⟩ := List.exists_mem_of_ne_nil ls hne
      exact ⟨x, hx, decide_eq_true (by rw [h0]; exact h x hx)⟩
    · exact ⟨x, hx, decide_eq_true (le_of_eq hxe)⟩
  obtain ⟨x0, hx0, hpx0⟩ := hex
  obtain ⟨a, ha⟩ :=
    find?_isSome_of_mem (fun l => decide (listMax ls 0 ≤ l.confidence)) hx0 hpx0
  have hfindeq : specBestGuess ls = some a := by
    unfold specBestGuess
    rw [find?_congr_mem hpq]
    exact ha
  refine ⟨a, hfindeq, ?_⟩
  by_cases hcase : ∃ l ∈ ls, (0 : ℚ) < l.confidence
  · rw [scanBest_snd_of_exists ls 0 0 0 hcase, Nat.zero_add]
    exact getD_findIdx_of_find? defaultLicense ha
  · push_neg at hcase
    rw [scanBest_snd_of_le ls 0 0 0 (fun l hl => hcase l hl)]
    cases ls with
    | nil => exact absurd rfl hne
    | cons l0 rest =>
      have hall0 : listMax (l0 :: rest) 0 ≤ l0.confidence := by
        apply listMax_le
        · intro y hy
          exact le_trans (hcase y hy) (h l0 (List.mem_cons_self _ _))
        · exact h l0 (List.mem_cons_self _ _)
      have hfl : List.find? (fun l => decide (listMax (l0 :: rest) 0 ≤ l.confidence))
          (l0 :: rest) = some l0 :=
        List.find?_cons_of_pos _ (decide_eq_true hall0)
      rw [ha] at hfl
      injection hfl with h1
      rw [List.getD_cons_zero]
      exact h1.symm

/-- On non-negative confidences the Go reduction of one record agrees with
the spec-side first-maximum reduction. -/
theorem cleanupRecord_eq_specReduce (info : projectAndLicenses)
    (h : ∀ l ∈ info.licenses, 0 ≤ l.confidence) :
    cleanupRecord info = specReduce info := by
  unfold cleanupRecord specReduce
  by_cases hlen : 1 < info.licenses.length
  · rw [if_pos hlen, if_pos hlen]
    have hne : info.licenses ≠ [] := by
      intro he
      rw [he] at hlen
      simp at hlen
    obtain ⟨a, ha1, ha2⟩ := pick_eq_firstMax hne h
    rw [ha1, ha2]
  · rw [if_neg hlen, if_neg hlen]

/-- The spec's license-reduction example record. -/
def exC1 : projectAndLicenses :=
  { project := "p", licenses := [⟨"A", 9/10⟩, ⟨"B", 19/20⟩, ⟨"C", 19/20⟩],
    error := "", vcs := "" }

/-- C1: for every resolved record with more than one license guess, the
license reducer replaces the license list with the single guess of
strictly-greatest confidence, first occurrence winning ties (strict
greater-than against a running maximum initialised to 0); records with
zero or one guess are unchanged; and licenses
[{A,0.9},{B,0.95},{C,0.95}] reduce to [{B,0.95}]. -/
theorem claim_C1 (reg : Reg)
    (h : ∀ kv ∈ reg, ∀ l ∈ kv.2.licenses, 0 ≤ l.confidence) :
    cleanupLicense reg = reg.map (fun kv => (kv.1, specReduce kv.2)) ∧
    cleanupRecord exC1 =
      { project := "p", licenses := [⟨"B", 19/20⟩], error := "", vcs := "" } := by
  constructor
  · unfold cleanupLicense
    apply List.map_congr_left
    intro kv hkv
    rw [cleanupRecord_eq_specReduce kv.2 (h kv hkv)]
  · norm_num [exC1, cleanupRecord, scanBest, defaultLicense]

/-- C1 witness: the general statement applied to a one-record table holding
the example record. -/
theorem claim_C1_witness :
    cleanupLicense [(("p" : String), exC1)] =
        [(("p" : String), exC1)].map (fun kv => (kv.1, specReduce kv.2)) ∧
      cleanupRecord exC1 =
        { project := "p", licenses := [⟨"B", 19/20⟩], error := "", vcs := "" } :=
  claim_C1 [(("p" : String), exC1)] (by
    intro kv hkv l hl
    simp only [List.mem_singleton] at hkv
    rw [hkv] at hl
    simp only [exC1, List.mem_cons, List.mem_singleton, List.not_mem_nil] at hl
    rcases hl with h1 | h1 | h1 | h1 <;> first
      | (rw [h1]; norm_num)
      | cases h1)

/-- C3: the first document decoded from a file is merged into the resolved
table and every subsequent document into the error table; a file with
exactly one document touches only the resolved table. -/
theorem claim_C3 :
    (∀ (d : BOMDoc) (ds : List BOMDoc) (bom errs : Reg),
        loadBOM (Except.ok d :: ds.map Except.ok) bom errs =
          Except.ok (ingestDoc bom d, ds.foldl ingestDoc errs)) ∧
    (∀ (d : BOMDoc) (bom errs : Reg),
        loadBOM [Except.ok d] bom errs = Except.ok (ingestDoc bom d, errs)) := by
  have aux : ∀ (ds : List BOMDoc) (bom errs : Reg),
      loadBOMAux (ds.map Except.ok) false bom errs =
        Except.ok (bom, ds.foldl ingestDoc errs) := by
    intro ds
    induction ds with
    | nil => intro bom errs; rfl
    | cons d rest ih =>
      intro bom errs
      rw [show loadBOMAux ((d :: rest).map Except.ok) false bom errs =
            loadBOMAux (rest.map Except.ok) false bom (ingestDoc errs d) from rfl]
      rw [ih]
      rfl
  constructor
  · intro d ds bom errs
    rw [show loadBOM (Except.ok d :: ds.map Except.ok) bom errs =
          loadBOMAux (ds.map Except.ok) false (ingestDoc bom d) errs from rfl]
    exact aux ds (ingestDoc bom d) errs
  · intro d bom errs
    rfl

/-- The spec's override example: the scanned record. -/
def origC4 : projectAndLicenses :=
  { project := "p", licenses := [⟨"MIT", 9/10⟩], error := "", vcs := "" }

/-- The spec's override example: the override record. -/
def ovrC4 : projectAndLicenses :=
  { project := "p", licenses := [⟨"Apache-2.0", 1⟩], error := "", vcs := "custom" }

/-- C4: a resolved identifier also present in the override table has its
whole record replaced by the override record (no field merge); identifiers
only in the override table are never added. -/
theorem claim_C4 :
    (∀ (ovr reg : Reg) (k : String),
        lookupReg (applyOverrides ovr reg) k =
          (lookupReg reg k).map (fun v => (lookupReg ovr k).getD v)) ∧
    applyOverrides [(("p" : String), ovrC4)] [(("p" : String), origC4)] =
      [(("p" : String), ovrC4)] := by
  constructor
  · intro ovr reg k
    induction reg with
    | nil => rfl
    | cons kv rest ih =>
      have hstep : applyOverrides ovr (kv :: rest) =
          (match lookupReg ovr kv.1 with
           | some o => (kv.1, o)
           | none => kv) :: applyOverrides ovr rest := rfl
      cases ho : lookupReg ovr kv.1 with
      | some o =>
        rw [hstep]
        simp only [ho]
        rw [lookupReg_cons, lookupReg_cons]
        by_cases hk : (kv.1 == k) = true
        · have hk1 : kv.1 = k := by simpa using hk
          rw [if_pos hk, if_pos hk]
          rw [← hk1, ho]
          simp
        · rw [if_neg hk, if_neg hk]
          exact ih
      | none =>
        rw [hstep]
        simp only [ho]
        rw [lookupReg_cons, lookupReg_cons]
        by_cases hk : (kv.1 == k) = true
        · have hk1 : kv.1 = k := by simpa using hk
          rw [if_pos hk, if_pos hk]
          rw [← hk1, ho]
          simp
        · rw [if_neg hk, if_neg hk]
          exact ih
  · rfl

/-- C6: a record whose project identifier starts with github.com/ but has
fewer than three slash-separated segments makes the VCS resolver's slice
expression panic when external detection returns an empty root. -/
theorem claim_C6 (detect : String → Except String String) (k : String)
    (info : projectAndLicenses) (h1 : detect info.project = Except.ok (""))
    (h2 : strStartsWith k ("github.com/") = true)
    (h3 : (strSplitSlash k).length < 3) :
    discoverRecord detect k info = Except.error ("slice bounds out of range") ∧
    discoverVCS detect [(k, info)] = Except.error ("slice bounds out of range") := by
  have hrec : discoverRecord detect k info = Except.error ("slice bounds out of range") := by
    simp only [discoverRecord, h1]
    rw [if_neg (by simp)]
    rw [if_pos h2]
    unfold goSliceTo
    rw [if_neg (by omega)]
  refine ⟨hrec, ?_⟩
  simp [discoverVCS, hrec]

/-- C6 witness: the two-segment identifier github.com/x with a detector
returning an empty root. -/
theorem claim_C6_witness :
    discoverRecord (fun _ => Except.ok ("")) ("github.com/x")
        { project := "github.com/x", licenses := [], error := "", vcs := "" } =
      Except.error ("slice bounds out of range") ∧
    discoverVCS (fun _ => Except.ok ("")) [(("github.com/x" : String),
        { project := "github.com/x", licenses := [], error := "", vcs := "" })] =
      Except.error ("slice bounds out of range") :=
  claim_C6 (fun _ => Except.ok ("")) ("github.com/x")
    { project := "github.com/x", licenses := [], error := "", vcs := "" }
    rfl rfl (by decide)

theorem applyOverrides_nil (reg : Reg) : applyOverrides [] reg = reg := by
  unfold applyOverrides
  rw [show (fun kv : String × projectAndLicenses =>
        match lookupReg [] kv.1 with
        | some o => (kv.1, o)
        | none => kv) = fun kv => kv from rfl]
  exact List.map_id' reg

theorem postLoad_good {detect : String → Except String String} {ovr : Reg}
    {mods : List String} {bom errs : Reg} {o e : List projectAndLicenses}
    (hovr : KeyConsistent ovr) (hb : GoodReg bom) (he : GoodReg errs)
    (h : postLoad detect ovr mods bom errs = Except.ok (o, e)) :
    ∃ bomv errsv : Reg, GoodReg bomv ∧ GoodReg errsv ∧
      o = writeBOMList bomv ∧ e = writeBOMList errsv := by
  unfold postLoad at h
  cases h1 : discoverVCS detect (applyOverrides ovr (filterStage mods (cleanupLicense bom))) with
  | error s => rw [h1] at h; cases h
  | ok bomv =>
    rw [h1] at h
    cases h2 : discoverVCS detect errs with
    | error s => rw [h2] at h; cases h
    | ok errsv =>
      rw [h2] at h
      injection h with h3
      injection h3 with h4 h5
      refine ⟨bomv, errsv, ?_, ?_, h4.symm, h5.symm⟩
      · exact goodReg_discoverVCS h1
          (goodReg_applyOverrides hovr
            (goodReg_filterStage mods (goodReg_cleanupLicense hb)))
      · exact goodReg_discoverVCS h2 he

theorem mainPipeline_good {detect : String → Except String String} {cfg : MergerConfig}
    {o e : List projectAndLicenses} (h : mainPipeline detect cfg = Except.ok (o, e)) :
    ∃ bomv errsv : Reg, GoodReg bomv ∧ GoodReg errsv ∧
      o = writeBOMList bomv ∧ e = writeBOMList errsv := by
  unfold mainPipeline at h
  cases hload : loadAll cfg.files [] [] with
  | error s => rw [hload] at h; cases h
  | ok p =>
    obtain ⟨bom, errs⟩ := p
    rw [hload] at h
    obtain ⟨gb, ge⟩ :=
      goodReg_loadAll cfg.files [] [] bom errs goodReg_nil goodReg_nil hload
    have hovr : KeyConsistent
        (match cfg.overrides with
         | some l => buildOverrides l
         | none => []) := by
      cases cfg.overrides with
      | some l => exact (buildOverrides_good l).2
      | none => intro kv hkv; cases hkv
    exact postLoad_good hovr gb ge h

/-- C2: both output arrays are sorted strictly by ascending project
identifier, hence contain no two records with the same identifier. -/
theorem claim_C2 (detect : String → Except String String) (cfg : MergerConfig)
    (o e : List projectAndLicenses) (h : mainPipeline detect cfg = Except.ok (o, e)) :
    o.Pairwise (fun a b => a.project < b.project) ∧
    e.Pairwise (fun a b => a.project < b.project) := by
  obtain ⟨bomv, errsv, gb, ge, ho, he⟩ := mainPipeline_good h
  rw [ho, he]
  exact ⟨writeBOMList_pairwise gb.1 gb.2.1, writeBOMList_pairwise ge.1 ge.2.1⟩

/-- A concrete two-record input (keys deliberately out of order). -/
def recB : projectAndLicenses :=
  { project := "b", licenses := [⟨"MIT", 1⟩, ⟨"Apache", 2⟩], error := "", vcs := "" }

/-- Second record of the concrete input. -/
def recA : projectAndLicenses :=
  { project := "a", licenses := [⟨"MIT", 1⟩], error := "", vcs := "" }

/-- A concrete run configuration: one file, one document, no overrides, no
filters. -/
def cfgW : MergerConfig :=
  { overrides := none, files := [[Except.ok [recB, recA]]], filterModules := [] }

/-- The resolved output of the concrete run under a detector that always
returns root r. -/
def outW : List projectAndLicenses :=
  [{ project := "a", licenses := [⟨"MIT", 1⟩], error := "", vcs := "r" },
   { project := "b", licenses := [⟨"Apache", 2⟩], error := "", vcs := "r" }]

/-- C2 witness: the concrete run, evaluated. -/
theorem claim_C2_witness :
    List.Pairwise (fun a b : projectAndLicenses => a.project < b.project) outW ∧
    List.Pairwise (fun a b : projectAndLicenses => a.project < b.project)
      ([] : List projectAndLicenses) :=
  claim_C2 (fun _ => Except.ok ("r")) cfgW outW []
    (show mainPipeline (fun _ => Except.ok ("r")) cfgW = Except.ok (outW, []) from rfl)

theorem lookupReg_map_replace {k k2 : String} {v : projectAndLicenses}
    (hne : k2 ≠ k) :
    ∀ reg : Reg,
      lookupReg (reg.map (fun kv => if kv.1 == k then (k, v) else kv)) k2 =
        lookupReg reg k2 := by
  intro reg
  induction reg with
  | nil => rfl
  | cons kv rest ih =>
    rw [List.map_cons, lookupReg_cons, lookupReg_cons]
    by_cases hk : (kv.1 == k) = true
    · have hk1 : kv.1 = k := by simpa using hk
      rw [if_pos hk]
      have h1 : ((k, v).1 == k2) = false := by
        simp only [beq_eq_false_iff_ne, ne_eq]
        intro heq
        exact hne (heq.symm)
      have h2 : (kv.1 == k2) = false := by
        simp only [beq_eq_false_iff_ne, ne_eq]
        rw [hk1]
        intro heq
        exact hne heq.symm
      rw [h1, h2]
      simp only [Bool.false_eq_true, if_false]
      exact ih
    · rw [if_neg hk]
      by_cases hq : (kv.1 == k2) = true
      · rw [if_pos hq, if_pos hq]
      · rw [if_neg hq, if_neg hq]
        exact ih

theorem lookupReg_append_single_ne {k k2 : String} {v : projectAndLicenses}
    (hne : k2 ≠ k) (reg : Reg) :
    lookupReg (reg ++ [(k, v)]) k2 = lookupReg reg k2 := by
  unfold lookupReg
  rw [List.find?_append]
  cases hf : reg.find? (fun kv => kv.1 == k2) with
  | some a => rfl
  | none =>
    have h1 : List.find? (fun kv => kv.1 == k2) [(k, v)] = none := by
      simp only [List.find?_cons, List.find?_nil]
      have : ((k, v).1 == k2) = false := by
        simp only [beq_eq_false_iff_ne, ne_eq]
        intro heq
        exact hne heq.symm
      rw [this]
    rw [h1]
    rfl

theorem lookupReg_regSet_ne {reg : Reg} {k k2 : String} {v : projectAndLicenses}
    (hne : k2 ≠ k) : lookupReg (regSet reg k v) k2 = lookupReg reg k2 := by
  unfold regSet
  by_cases ha : reg.any (fun kv => kv.1 == k)
  · rw [if_pos ha]
    exact lookupReg_map_replace hne reg
  · rw [if_neg ha]
    exact lookupReg_append_single_ne hne reg

theorem lookupReg_ingestDoc_empty (doc : BOMDoc) :
    ∀ reg : Reg, lookupReg (ingestDoc reg doc) ("") = lookupReg reg ("") := by
  induction doc with
  | nil => intro reg; rfl
  | cons p rest ih =>
    intro reg
    rw [ingestDoc_cons]
    by_cases hp : p.project = ""
    · rw [if_pos hp]
      exact ih reg
    · rw [if_neg hp]
      rw [ih (regSet reg p.project p)]
      exact lookupReg_regSet_ne (fun heq => hp heq.symm)

/-- C8: records with an empty project identifier are discarded at
ingestion, and neither output array contains a record with an empty
identifier. -/
theorem claim_C8 (detect : String → Except String String) (cfg : MergerConfig)
    (o e : List projectAndLicenses) (doc : BOMDoc) (reg : Reg)
    (h : mainPipeline detect cfg = Except.ok (o, e)) :
    lookupReg (ingestDoc reg doc) ("") = lookupReg reg ("") ∧
    (∀ r ∈ o, r.project ≠ "") ∧ (∀ r ∈ e, r.project ≠ "") := by
  refine ⟨lookupReg_ingestDoc_empty doc reg, ?_, ?_⟩
  all_goals
    obtain ⟨bomv, errsv, gb, ge, ho, he⟩ := mainPipeline_good h
  · rw [ho]
    intro r hr
    obtain ⟨k, hk⟩ := mem_writeBOMList hr
    have hproj : r.project = k := gb.2.1 (k, r) hk
    have hkne : k ≠ "" := gb.2.2 (k, r) hk
    rw [hproj]
    exact hkne
  · rw [he]
    intro r hr
    obtain ⟨k, hk⟩ := mem_writeBOMList hr
    have hproj : r.project = k := ge.2.1 (k, r) hk
    have hkne : k ≠ "" := ge.2.2 (k, r) hk
    rw [hproj]
    exact hkne

/-- C8 witness: the concrete run of `cfgW`, with an ingestion step mixing
an empty-identifier record into a document. -/
theorem claim_C8_witness :
    lookupReg (ingestDoc [] [{ project := "", licenses := [], error := "", vcs := "" }])
        ("") = lookupReg ([] : Reg) ("") ∧
    (∀ r ∈ outW, r.project ≠ "") ∧
    (∀ r ∈ ([] : List projectAndLicenses), r.project ≠ "") :=
  claim_C8 (fun _ => Except.ok ("r")) cfgW outW []
    [{ project := "", licenses := [], error := "", vcs := "" }] []
    (show mainPipeline (fun _ => Except.ok ("r")) cfgW = Except.ok (outW, []) from rfl)

theorem loadBOMAux_error_of_mem {s : String} :
    ∀ (docs : BOMFile) (g : Bool) (bom errs : Reg), Except.error s ∈ docs →
      ∃ e, loadBOMAux docs g bom errs = Except.error e := by
  intro docs
  induction docs with
  | nil => intro g bom errs h; cases h
  | cons d rest ih =>
    intro g bom errs h
    cases d with
    | error e2 => exact ⟨e2, rfl⟩
    | ok doc =>
      have hm : Except.error s ∈ rest := by
        rcases List.mem_cons.mp h with heq | hm
        · cases heq
        · exact hm
      cases g with
      | true =>
        obtain ⟨e, he⟩ := ih false (ingestDoc bom doc) errs hm
        exact ⟨e, by
          rw [show loadBOMAux (Except.ok doc :: rest) true bom errs =
                loadBOMAux rest false (ingestDoc bom doc) errs from rfl]
          exact he⟩
      | false =>
        obtain ⟨e, he⟩ := ih false bom (ingestDoc errs doc) hm
        exact ⟨e, by
          rw [show loadBOMAux (Except.ok doc :: rest) false bom errs =
                loadBOMAux rest false bom (ingestDoc errs doc) from rfl]
          exact he⟩

theorem loadAll_error :
    ∀ (files : List BOMFile) (bom errs : Reg),
      (∃ f ∈ files, ∃ s, Except.error s ∈ f) →
      ∃ e, loadAll files bom errs = Except.error e := by
  intro files
  induction files with
  | nil =>
    intro bom errs h
    obtain ⟨f, hf, _⟩ := h
    cases hf
  | cons f rest ih =>
    intro bom errs h
    obtain ⟨f0, hf0, s, hs⟩ := h
    rcases List.mem_cons.mp hf0 with heq | hm
    · obtain ⟨e, he⟩ := loadBOMAux_error_of_mem f true bom errs (heq ▸ hs)
      exact ⟨e, by simp [loadAll, loadBOM, he]⟩
    · cases hl : loadBOM f bom errs with
      | error e => exact ⟨e, by simp [loadAll, hl]⟩
      | ok p =>
        obtain ⟨e, he⟩ := ih p.1 p.2 ⟨f0, hm, s, hs⟩
        exact ⟨e, by simp [loadAll, hl, he]⟩

/-- C9: a decode failure in any document of any input file aborts the
whole run before any output is produced. -/
theorem claim_C9 (detect : String → Except String String) (cfg : MergerConfig)
    (h : ∃ f ∈ cfg.files, ∃ s, Except.error s ∈ f) :
    ∃ msg, mainPipeline detect cfg = Except.error msg := by
  obtain ⟨e, he⟩ := loadAll_error cfg.files [] [] h
  exact ⟨e, by simp [mainPipeline, he]⟩

/-- C9 witness: a run whose single input file has one failing document. -/
theorem claim_C9_witness :
    ∃ msg, mainPipeline (fun _ => Except.ok ("r"))
        { overrides := none, files := [[Except.error ("bad")]], filterModules := [] } =
      Except.error msg :=
  claim_C9 (fun _ => Except.ok ("r"))
    { overrides := none, files := [[Except.error ("bad")]], filterModules := [] }
    ⟨[Except.error ("bad")], List.mem_singleton.mpr rfl, "bad",
      List.mem_singleton.mpr rfl⟩

/-- The spec's filter example: a github-hosted record. -/
def recX : projectAndLicenses :=
  { project := "github.com/x/y", licenses := [], error := "", vcs := "" }

/-- The spec's filter example: a gitlab-hosted record. -/
def recG : projectAndLicenses :=
  { project := "gitlab.com/a/b", licenses := [], error := "", vcs := "" }

theorem discoverVCS_ok_of_detect {detect : String → Except String String}
    (hdet : ∀ s, ∃ v, detect s = Except.ok v ∧ v ≠ "") (reg : Reg) :
    discoverVCS detect reg = Except.ok (reg.map (discoveredEntry detect)) := by
  apply discoverVCS_ok_of_all
  intro kv _
  obtain ⟨v, hv, hne⟩ := hdet kv.2.project
  exact ⟨{ kv.2 with vcs := v }, by
    simp only [discoverRecord, hv]
    rw [if_pos hne]⟩

theorem postLoad_snd_mods {detect : String → Except String String}
    (hdet : ∀ s, ∃ v, detect s = Except.ok v ∧ v ≠ "") (ovr : Reg)
    (m1 m2 : List String) (bom errs : Reg) :
    Except.map Prod.snd (postLoad detect ovr m1 bom errs) =
      Except.map Prod.snd (postLoad detect ovr m2 bom errs) := by
  unfold postLoad
  rw [discoverVCS_ok_of_detect hdet (applyOverrides ovr (filterStage m1 (cleanupLicense bom)))]
  rw [discoverVCS_ok_of_detect hdet (applyOverrides ovr (filterStage m2 (cleanupLicense bom)))]
  rw [discoverVCS_ok_of_detect hdet errs]
  rfl

/-- C7: every resolved record whose identifier starts with a listed prefix
is removed, the others are kept, and filtering never modifies the error
output. -/
theorem claim_C7 (detect : String → Except String String)
    (hdet : ∀ s, ∃ v, detect s = Except.ok v ∧ v ≠ "")
    (mods : List String) (reg : Reg) (cfg : MergerConfig) (m1 m2 : List String) :
    filterStage mods reg =
        reg.filter (fun kv => !(mods.any (fun m => strStartsWith kv.1 m))) ∧
    filterStage [("github.com/x" : String)]
        [(("github.com/x/y" : String), recX), (("gitlab.com/a/b" : String), recG)] =
      [(("gitlab.com/a/b" : String), recG)] ∧
    Except.map Prod.snd (mainPipeline detect { cfg with filterModules := m1 }) =
      Except.map Prod.snd (mainPipeline detect { cfg with filterModules := m2 }) := by
  refine ⟨?_, ?_, ?_⟩
  · induction mods generalizing reg with
    | nil =>
      simp [filterStage]
    | cons m ms ih =>
      rw [show filterStage (m :: ms) reg = filterStage ms (deleteModule reg m) from rfl]
      rw [ih (deleteModule reg m)]
      unfold deleteModule
      rw [List.filter_filter]
      rw [show (fun a : String × projectAndLicenses =>
            (!(ms.any (fun mm => strStartsWith a.1 mm))) && !(strStartsWith a.1 m)) =
          (fun a : String × projectAndLicenses =>
            !(List.any (m :: ms) (fun mm => strStartsWith a.1 mm))) from by
        funext a
        simp [List.any_cons, Bool.not_or, Bool.and_comm]]
  · rfl
  · unfold mainPipeline
    cases hload : loadAll cfg.files [] [] with
    | error s => rfl
    | ok p =>
      obtain ⟨bom, errs⟩ := p
      exact postLoad_snd_mods hdet _ m1 m2 bom errs

/-- C7 witness: the general statement at a concrete detector, table, and
configuration. -/
theorem claim_C7_witness :
    filterStage [("github.com/x" : String)]
        [(("github.com/x/y" : String), recX), (("gitlab.com/a/b" : String), recG)] =
        [(("github.com/x/y" : String), recX),
            (("gitlab.com/a/b" : String), recG)].filter
          (fun kv => !(List.any [("github.com/x" : String)]
            (fun m => strStartsWith kv.1 m))) ∧
    filterStage [("github.com/x" : String)]
        [(("github.com/x/y" : String), recX), (("gitlab.com/a/b" : String), recG)] =
      [(("gitlab.com/a/b" : String), recG)] ∧
    Except.map Prod.snd (mainPipeline (fun _ => Except.ok ("r"))
        { cfgW with filterModules := [("github.com/x" : String)] }) =
      Except.map Prod.snd (mainPipeline (fun _ => Except.ok ("r"))
        { cfgW with filterModules := [] }) :=
  claim_C7 (fun _ => Except.ok ("r")) (fun _ => ⟨"r", rfl, by decide⟩)
    [("github.com/x" : String)]
    [(("github.com/x/y" : String), recX), (("gitlab.com/a/b" : String), recG)]
    cfgW [("github.com/x" : String)] []

theorem mem_cleanupLicense_length {reg : Reg} {kv : String × projectAndLicenses}
    (h : kv ∈ cleanupLicense reg) : kv.2.licenses.length ≤ 1 := by
  obtain ⟨kv0, _, heq⟩ := List.mem_map.mp h
  rw [← heq]
  exact cleanupRecord_length kv0.2

/-- C5 counterexample: the detector. -/
def detC5 : String → Except String String := fun _ => Except.ok ("r")

/-- C5 counterexample: an override record carrying two license guesses. -/
def ovC5 : projectAndLicenses :=
  { project := "p", licenses := [⟨"A", 1⟩, ⟨"B", 2⟩], error := "", vcs := "" }

/-- C5 counterexample: the scanned record. -/
def inC5 : projectAndLicenses :=
  { project := "p", licenses := [⟨"MIT", 1⟩], error := "", vcs := "" }

/-- C5 counterexample: the run configuration with an override file. -/
def cfgC5 : MergerConfig :=
  { overrides := some [ovC5], files := [[Except.ok [inC5]]], filterModules := [] }

/-- C5 counterexample: overrides are applied after license reduction, so a
two-license override record reaches bom.json intact — the claimed
invariant fails on runs with an override file. -/
theorem claim_C5_counterexample :
    ∃ o e, mainPipeline detC5 cfgC5 = Except.ok (o, e) ∧
      ∃ r ∈ o, 1 < r.licenses.length := by
  refine ⟨[{ project := "p", licenses := [⟨"A", 1⟩, ⟨"B", 2⟩], error := "", vcs := "r" }],
    [], rfl, ?_⟩
  refine ⟨_, List.mem_singleton.mpr rfl, ?_⟩
  simp

/-- C5 (amended): after the license-reduction stage every record has at
most one license entry, and the invariant still holds for every record
written to bom.json on runs without an override file (an override record
is copied verbatim after reduction, so it may carry more). -/
theorem claim_C5 (reg : Reg) (detect : String → Except String String)
    (cfg : MergerConfig) (o e : List projectAndLicenses)
    (hov : cfg.overrides = none) (h : mainPipeline detect cfg = Except.ok (o, e)) :
    (∀ kv ∈ cleanupLicense reg, kv.2.licenses.length ≤ 1) ∧
    (∀ r ∈ o, r.licenses.length ≤ 1) := by
  refine ⟨fun kv hkv => mem_cleanupLicense_length hkv, ?_⟩
  unfold mainPipeline at h
  simp only [hov] at h
  cases hload : loadAll cfg.files [] [] with
  | error s => rw [hload] at h; cases h
  | ok p =>
    obtain ⟨bom, errs⟩ := p
    rw [hload] at h
    replace h : postLoad detect [] cfg.filterModules bom errs = Except.ok (o, e) := h
    unfold postLoad at h
    rw [applyOverrides_nil] at h
    cases h1 : discoverVCS detect (filterStage cfg.filterModules (cleanupLicense bom)) with
    | error s => rw [h1] at h; cases h
    | ok bomv =>
      rw [h1] at h
      cases h2 : discoverVCS detect errs with
      | error s => rw [h2] at h; cases h
      | ok errsv =>
        rw [h2] at h
        injection h with h3
        injection h3 with h4 h5
        rw [← h4]
        intro r hr
        obtain ⟨k, hk⟩ := mem_writeBOMList hr
        obtain ⟨kv, hkv, hrel⟩ := forall2_mem_right (discoverVCS_ok_inv h1) (k, r) hk
        have hlen : kv.2.licenses.length ≤ 1 :=
          mem_cleanupLicense_length
            ((filterStage_sublist cfg.filterModules (cleanupLicense bom)).subset hkv)
        have : r.licenses = kv.2.licenses := hrel.2.2
        rw [show r.licenses.length = kv.2.licenses.length from by rw [this]]
        exact hlen

/-- C5 witness: the amended statement at the concrete override-free run. -/
theorem claim_C5_witness :
    (∀ kv ∈ cleanupLicense [(("p" : String), exC1)], kv.2.licenses.length ≤ 1) ∧
    (∀ r ∈ outW, r.licenses.length ≤ 1) :=
  claim_C5 [(("p" : String), exC1)] (fun _ => Except.ok ("r")) cfgW outW [] rfl
    (show mainPipeline (fun _ => Except.ok ("r")) cfgW = Except.ok (outW, []) from rfl)

/-- C10: with no override file and no filter prefixes, the serialized
outputs are a function of the loaded tables as maps: any reordering of the
in-memory tables (the unspecified Go map iteration order) yields
byte-identical bom.json and bom_error.json, or the same abort. -/
theorem claim_C10 (detect : String → Except String String) (files : List BOMFile)
    (bom errs bom2 errs2 : Reg)
    (hload : loadAll files [] [] = Except.ok (bom, errs))
    (hb : bom.Perm bom2) (he : errs.Perm errs2) :
    Option.map (fun p => (MarshalJson p.1, MarshalJson p.2))
        (postLoad detect [] [] bom errs).toOption =
      Option.map (fun p => (MarshalJson p.1, MarshalJson p.2))
        (postLoad detect [] [] bom2 errs2).toOption := by
  obtain ⟨gb, ge⟩ := goodReg_loadAll files [] [] bom errs goodReg_nil goodReg_nil hload
  have hnb : NodupKeys (cleanupLicense bom) := (goodReg_cleanupLicense gb).1
  have hnerr : NodupKeys errs := ge.1
  have hcb : (cleanupLicense bom).Perm (cleanupLicense bom2) := hb.map _
  have hfil : ∀ r : Reg, filterStage [] r = r := fun _ => rfl
  unfold postLoad
  rw [applyOverrides_nil, applyOverrides_nil, hfil (cleanupLicense bom),
    hfil (cleanupLicense bom2)]
  by_cases hall : ∀ kv ∈ cleanupLicense bom, ∃ v, discoverRecord detect kv.1 kv.2 = Except.ok v
  · have hall2 : ∀ kv ∈ cleanupLicense bom2, ∃ v, discoverRecord detect kv.1 kv.2 = Except.ok v :=
      fun kv hkv => hall kv (hcb.symm.subset hkv)
    rw [discoverVCS_ok_of_all _ hall, discoverVCS_ok_of_all _ hall2]
    have hperm2 : ((cleanupLicense bom).map (discoveredEntry detect)).Perm
        ((cleanupLicense bom2).map (discoveredEntry detect)) := hcb.map _
    have hnodup2 : NodupKeys ((cleanupLicense bom).map (discoveredEntry detect)) := by
      unfold NodupKeys
      rw [List.map_map]
      exact hnb
    by_cases hallE : ∀ kv ∈ errs, ∃ v, discoverRecord detect kv.1 kv.2 = Except.ok v
    · have hallE2 : ∀ kv ∈ errs2, ∃ v, discoverRecord detect kv.1 kv.2 = Except.ok v :=
        fun kv hkv => hallE kv (he.symm.subset hkv)
      rw [discoverVCS_ok_of_all _ hallE, discoverVCS_ok_of_all _ hallE2]
      have hnodupE : NodupKeys (errs.map (discoveredEntry detect)) := by
        unfold NodupKeys
        rw [List.map_map]
        exact hnerr
      have hwb : writeBOMList ((cleanupLicense bom).map (discoveredEntry detect)) =
          writeBOMList ((cleanupLicense bom2).map (discoveredEntry detect)) :=
        writeBOMList_perm hnodup2 hperm2
      have hwe : writeBOMList (errs.map (discoveredEntry detect)) =
          writeBOMList (errs2.map (discoveredEntry detect)) :=
        writeBOMList_perm hnodupE (he.map _)
      show some (MarshalJson (writeBOMList ((cleanupLicense bom).map (discoveredEntry detect))),
            MarshalJson (writeBOMList (errs.map (discoveredEntry detect)))) =
          some (MarshalJson (writeBOMList ((cleanupLicense bom2).map (discoveredEntry detect))),
            MarshalJson (writeBOMList (errs2.map (discoveredEntry detect))))
      rw [hwb, hwe]
    · have hex : ∃ kv ∈ errs, ∀ v, discoverRecord detect kv.1 kv.2 ≠ Except.ok v := by
        push_neg at hallE
        exact hallE
      obtain ⟨kv, hkv, hfail⟩ := hex
      obtain ⟨e1, he1⟩ := discoverVCS_error_of_mem errs hkv hfail
      obtain ⟨e2, he2⟩ := discoverVCS_error_of_mem errs2 (he.subset hkv) hfail
      rw [he1, he2]
      rfl
  · have hex : ∃ kv ∈ cleanupLicense bom, ∀ v, discoverRecord detect kv.1 kv.2 ≠ Except.ok v := by
      push_neg at hall
      exact hall
    obtain ⟨kv, hkv, hfail⟩ := hex
    obtain ⟨e1, he1⟩ := discoverVCS_error_of_mem (cleanupLicense bom) hkv hfail
    obtain ⟨e2, he2⟩ := discoverVCS_error_of_mem (cleanupLicense bom2) (hcb.subset hkv) hfail
    rw [he1, he2]
    rfl

/-- C10 witness: the concrete load, with the resolved table reversed in
the second run. -/
theorem claim_C10_witness :
    Option.map (fun p => (MarshalJson p.1, MarshalJson p.2))
        (postLoad (fun _ => Except.ok ("r")) [] []
          [(("b" : String), recB), (("a" : String), recA)] []).toOption =
      Option.map (fun p => (MarshalJson p.1, MarshalJson p.2))
        (postLoad (fun _ => Except.ok ("r")) [] []
          [(("a" : String), recA), (("b" : String), recB)] []).toOption :=
  claim_C10 (fun _ => Except.ok ("r")) [[Except.ok [recB, recA]]]
    [(("b" : String), recB), (("a" : String), recA)]
    [] [(("a" : String), recA), (("b" : String), recB)] []
    (show loadAll [[Except.ok [recB, recA]]] [] [] =
        Except.ok ([(("b" : String), recB), (("a" : String), recA)], []) from rfl)
    (List.Perm.swap (("a" : String), recA) (("b" : String), recB) [])
    (List.Perm.refl [])
